import Mathlib

/-
Verification of the pDESy scheduling core against its specification.

The Python sources under src (base_facility.py and the container classes)
are embedded shallowly: machine floats become rationals, fallible code
returns Option, and the process-wide numpy random generator becomes an
explicit state argument together with a fixed deterministic sampling
function.  Classes whose code is not part of the source tree (BaseTask,
BaseWorker, BaseWorkflow) are modelled from the specification text; each
such definition says so in its doc comment.
-/

namespace PDESy

/-- Task states, from the spec data model (src only declares them through
base_facility.py's import of BaseTaskState). -/
inductive BaseTaskState
  | NONE
  | READY
  | WORKING
  | WORKING_ADDITIONALLY
  | FINISHED
deriving DecidableEq, Repr

/-- Dependency kinds of an edge between tasks (spec section 3): Finish-Start
is the primary kind. -/
inductive BaseTaskDependency
  | FS
  | SS
  | FF
  | SF
deriving DecidableEq, Repr

/-- Facility states, from base_facility.py (BaseFacilityState). -/
inductive BaseFacilityState
  | FREE
  | WORKING
deriving DecidableEq, Repr

/-- An assigned task as a facility sees it: its ID and its current state.
The Python object graph holds direct task references; following the spec's
own design note (arena-style ID-indexed references) a facility's
assigned_task_list is embedded as the list of these snapshots, which is all
base_facility.py reads from it. -/
structure AssignedTask where
  ID : String
  state : BaseTaskState
deriving DecidableEq, Repr

/-- The numerical tolerance 1e-10 used by base_facility.py. -/
def errorTol : ℚ := 1 / 10000000000

/-- BaseFacility, from base_facility.py: constraint parameters and the
changeable simulation variables. -/
structure BaseFacility where
  name : String
  ID : String
  factory_id : Option String
  cost_per_time : ℚ
  solo_working : Bool
  workamount_skill_mean_map : List (String × ℚ)
  workamount_skill_sd_map : List (String × ℚ)
  state : BaseFacilityState
  cost_list : List ℚ
  start_time_list : List ℤ
  finish_time_list : List ℤ
  assigned_task_list : List AssignedTask
  assigned_task_id_record : List (List String)
deriving DecidableEq, Repr

/-- BaseFacility.initialize (base_facility.py lines 155-171): reset the six
changeable variables, leaving every constraint parameter unchanged. -/
def BaseFacility.initialize (f : BaseFacility) : BaseFacility :=
  { f with
    state := BaseFacilityState.FREE
    cost_list := []
    start_time_list := []
    finish_time_list := []
    assigned_task_list := []
    assigned_task_id_record := [] }

/-- BaseFacility.has_workamount_skill (base_facility.py lines 181-199):
true iff the mean map holds task_name with mean strictly above the
tolerance. -/
def BaseFacility.has_workamount_skill (f : BaseFacility) (task_name : String)
    (error_tol : ℚ) : Bool :=
  match f.workamount_skill_mean_map.lookup task_name with
  | some m => decide (0 + error_tol < m)
  | none => false

/-- Deterministic stand-in for numpy's seeded global generator: the unit
noise the generator would produce from a given state.  Its exact values are
irrelevant to every claim; what matters is that it is a fixed function of
the state. -/
def noiseOf (state : ℕ) : ℚ :=
  (((1103515245 * state + 12345) % 2147483648 : ℕ) : ℚ) / 2147483648

/-- One draw from Normal(mean, sd) as a deterministic function of the
generator state: the mean plus sd times the state's unit noise, so sd = 0
gives exactly the mean, as numpy does. -/
def normalSample (state : ℕ) (mean sd : ℚ) : ℚ :=
  mean + sd * noiseOf state

/-- The number of tasks assigned to this facility that are WORKING or
WORKING_ADDITIONALLY (the divisor in get_work_amount_skill_progress). -/
def BaseFacility.countWorking (f : BaseFacility) : ℕ :=
  f.assigned_task_list.countP fun task =>
    decide (task.state = BaseTaskState.WORKING ∨
      task.state = BaseTaskState.WORKING_ADDITIONALLY)

/-- BaseFacility.get_work_amount_skill_progress (base_facility.py lines
201-241).  seed = some s models np.random.seed(s) before the draw; rng is
the ambient generator state used when no seed is given.  Python's float
division by zero raises, so the result is an Option, none on the
ZeroDivisionError branch. -/
def BaseFacility.get_work_amount_skill_progress (f : BaseFacility)
    (task_name : String) (seed : Option ℕ) (rng : ℕ) : Option ℚ :=
  let state := seed.getD rng
  if f.has_workamount_skill task_name errorTol then
    let skill_mean := (f.workamount_skill_mean_map.lookup task_name).getD 0
    let skill_sd := (f.workamount_skill_sd_map.lookup task_name).getD 0
    let base_progress := normalSample state skill_mean skill_sd
    let k := f.countWorking
    if k = 0 then none else some (base_progress / (k : ℚ))
  else
    some 0

/-- Modelled from the spec: BaseWorker (base_worker.py is not among the
source files).  Per spec section 3 a worker carries the same resource
attributes as a facility, plus an optional facility-skill multiplier table
keyed by facility name; only the fields the modelled operations read are
kept. -/
structure BaseWorker where
  name : String
  solo_working : Bool
  workamount_skill_mean_map : List (String × ℚ)
  facility_skill_map : List (String × ℚ)
deriving DecidableEq, Repr

/-- Modelled from the spec: a worker's skill test, identical to
BaseFacility.has_workamount_skill per spec section 2.4 ("applies
identically to worker and facility variants"). -/
def BaseWorker.has_workamount_skill (w : BaseWorker) (task_name : String)
    (error_tol : ℚ) : Bool :=
  match w.workamount_skill_mean_map.lookup task_name with
  | some m => decide (0 + error_tol < m)
  | none => false

/-- Modelled from the spec: BaseTask (base_task.py is not among the source
files).  Fields follow the spec data model and the attribute names the
repository's tests read. -/
structure BaseTask where
  name : String
  default_work_amount : ℚ
  default_progress : ℚ
  auto_task : Bool
  est : ℚ
  eft : ℚ
  lst : ℚ
  lft : ℚ
  remaining_work_amount : ℚ
  state : BaseTaskState
  ready_time_list : List ℤ
  start_time_list : List ℤ
  finish_time_list : List ℤ
  allocated_worker_list : List BaseWorker
  allocated_facility_list : List BaseFacility
deriving DecidableEq, Repr

/-- Modelled from the spec: BaseTask.initialize (base_task.py is not among
the source files).  It resets the CPM fields to their construction values
(lst and lft to -1 meaning unset), recomputes the remaining work from the
default progress, clears histories and allocations, and re-derives the
initial state by the spec's thresholds (0 gives NONE, strictly between 0
and 1 gives READY, 1 gives FINISHED; the spec leaves progress outside
[0, 1] undefined and it is mapped to NONE here). -/
def BaseTask.initialize (t : BaseTask) : BaseTask :=
  { t with
    est := 0
    eft := 0
    lst := -1
    lft := -1
    remaining_work_amount := t.default_work_amount * (1 - t.default_progress)
    state :=
      if t.default_progress = 0 then BaseTaskState.NONE
      else if 0 < t.default_progress ∧ t.default_progress < 1 then
        BaseTaskState.READY
      else if t.default_progress = 1 then BaseTaskState.FINISHED
      else BaseTaskState.NONE
    ready_time_list := []
    start_time_list := []
    finish_time_list := []
    allocated_worker_list := []
    allocated_facility_list := [] }

/-- The three parallel history lists zipped into occupancy intervals
(ready tick, start tick, finish tick), truncated to the shortest list. -/
def zipRSF : List ℤ → List ℤ → List ℤ → List (ℤ × ℤ × ℤ)
  | r :: rs, s :: ss, f :: fs => (r, s, f) :: zipRSF rs ss fs
  | _, _, _ => []

/-- Modelled from the spec: the derived-state query over recorded occupancy
intervals (base_task.py is not among the source files).  Spec section 6
gives NONE before the first ready tick, READY from the ready tick up to
but excluding the start tick, and WORKING from the start tick; at the exact
finish tick the spec's section 6 wording (WORKING up to and including the
finish tick) and its end-to-end scenario C (FINISHED at the exact finish
tick) disagree, and the repository's own test test_get_state_from_record
resolves the conflict: the state at the finish tick is FINISHED.  FINISHED
then persists until the next recorded ready tick, matching the test's
multi-interval data. -/
def stateFromRecord : List (ℤ × ℤ × ℤ) → ℤ → BaseTaskState
  | [], _ => BaseTaskState.NONE
  | (r, s, f) :: rest, t =>
    if t < r then BaseTaskState.NONE
    else if t < s then BaseTaskState.READY
    else if t < f then BaseTaskState.WORKING
    else
      match rest with
      | [] => BaseTaskState.FINISHED
      | (r2, s2, f2) :: rest2 =>
        if t < r2 then BaseTaskState.FINISHED
        else stateFromRecord ((r2, s2, f2) :: rest2) t

/-- The recorded occupancy intervals of a task: its three history lists
zipped positionally. -/
def BaseTask.recordIntervals (task : BaseTask) : List (ℤ × ℤ × ℤ) :=
  zipRSF task.ready_time_list task.start_time_list task.finish_time_list

/-- Modelled from the spec: BaseTask.get_state_from_record reconstructs the
state at a past tick from the three history lists alone. -/
def BaseTask.get_state_from_record (task : BaseTask) (t : ℤ) : BaseTaskState :=
  stateFromRecord task.recordIntervals t

/-- A requested resource argument passes the skill test when present. -/
def optWorkerSkill (task_name : String) : Option BaseWorker → Bool
  | none => true
  | some w => w.has_workamount_skill task_name errorTol

/-- A requested facility argument passes the skill test when present. -/
def optFacilitySkill (task_name : String) : Option BaseFacility → Bool
  | none => true
  | some f => f.has_workamount_skill task_name errorTol

/-- Whether a requested resource argument is a solo-working resource. -/
def optWorkerSolo : Option BaseWorker → Bool
  | none => false
  | some w => w.solo_working

/-- Whether a requested facility argument is a solo-working facility. -/
def optFacilitySolo : Option BaseFacility → Bool
  | none => false
  | some f => f.solo_working

/-- When a facility is requested together with a worker, the worker's
facility-skill table must reference that facility (spec section 4.2). -/
def facilityCompatible : Option BaseWorker → Option BaseFacility → Bool
  | some w, some f => (w.facility_skill_map.lookup f.name).isSome
  | _, _ => true

/-- Modelled from the spec: BaseTask.can_add_resources (base_task.py is not
among the source files), a pure predicate whose refusal rules follow spec
section 4.2 in order: wrong state, no arguments, a requested resource
without the skill, an allocated solo-working resource, a requested
solo-working resource while the task is occupied, and a facility the
requesting worker's facility-skill table does not reference. -/
def BaseTask.can_add_resources (task : BaseTask) (worker : Option BaseWorker)
    (facility : Option BaseFacility) : Bool :=
  if task.state = BaseTaskState.NONE ∨ task.state = BaseTaskState.FINISHED then
    false
  else if worker = none ∧ facility = none then false
  else if optWorkerSkill task.name worker = false then false
  else if optFacilitySkill task.name facility = false then false
  else if (∃ w ∈ task.allocated_worker_list, w.solo_working = true) ∨
      (∃ f ∈ task.allocated_facility_list, f.solo_working = true) then false
  else if (optWorkerSolo worker = true ∨ optFacilitySolo facility = true) ∧
      (task.allocated_worker_list ≠ [] ∨ task.allocated_facility_list ≠ []) then
    false
  else if facilityCompatible worker facility = false then false
  else true

/-! Modelled from the spec: the CPM computation that BaseWorkflow's
initialize performs after cascading task resets (base_workflow.py is not
among the source files).  Tasks are numbered 0, 1, ... so that every
dependency edge goes from a lower to a higher index; such a numbering
exists exactly when the dependency graph is acyclic, and the forward pass
(spec: topological order, sources first) is the fold over ascending
indices, the backward pass the fold over descending indices. -/

/-- A dependency edge: predecessor index, successor index, kind. -/
abbrev Edge := ℕ × ℕ × BaseTaskDependency

/-- All predecessors of task j (any dependency kind). -/
def predsAll (edges : List Edge) (j : ℕ) : List ℕ :=
  (edges.filter fun e => decide (e.2.1 = j)).map fun e => e.1

/-- The Finish-Start predecessors of task j. -/
def fsPreds (edges : List Edge) (j : ℕ) : List ℕ :=
  (edges.filter fun e =>
    decide (e.2.1 = j ∧ e.2.2 = BaseTaskDependency.FS)).map fun e => e.1

/-- All successors of task i (any dependency kind). -/
def succsAll (edges : List Edge) (i : ℕ) : List ℕ :=
  (edges.filter fun e => decide (e.1 = i)).map fun e => e.2.1

/-- The edge list respects the topological numbering (hence the graph is
acyclic) and mentions only existing tasks. -/
def EdgesWF (w : List ℚ) (edges : List Edge) : Prop :=
  ∀ e ∈ edges, e.1 < e.2.1 ∧ e.2.1 < w.length

/-- One CPM pass: fold the per-task update over the given processing order,
storing each task's value at its index. -/
def cpmFold (step : List ℚ → ℕ → ℚ) (init : List ℚ) (order : List ℕ) :
    List ℚ :=
  order.foldl (fun acc i => acc.set i (step acc i)) init

/-- Forward-pass update (spec section 4.3): est is 0 for a task with no
predecessors, else the maximum eft over its Finish-Start predecessors. -/
def estStep (w : List ℚ) (edges : List Edge) (acc : List ℚ) (i : ℕ) : ℚ :=
  if predsAll edges i = [] then 0
  else ((fsPreds edges i).map fun p => acc.getD p 0 + w.getD p 0).foldl max 0

/-- The earliest start times, by the forward pass in topological order. -/
def estList (w : List ℚ) (edges : List Edge) : List ℚ :=
  cpmFold (estStep w edges) (List.replicate w.length 0) (List.range w.length)

/-- Earliest start time of task i after the forward pass. -/
def estOf (w : List ℚ) (edges : List Edge) (i : ℕ) : ℚ :=
  (estList w edges).getD i 0

/-- Earliest finish time: est plus the task's default work amount. -/
def eftOf (w : List ℚ) (edges : List Edge) (i : ℕ) : ℚ :=
  estOf w edges i + w.getD i 0

/-- The tasks with no successors. -/
def sinksOf (w : List ℚ) (edges : List Edge) : List ℕ :=
  (List.range w.length).filter fun i => decide (succsAll edges i = [])

/-- The critical path length: the maximum eft over tasks with no
successors, computed once after the forward pass. -/
def critical_path_length (w : List ℚ) (edges : List Edge) : ℚ :=
  ((sinksOf w edges).map fun i => eftOf w edges i).foldl max 0

/-- The minimum of a list, with a default value for the empty list. -/
def listMinD (d : ℚ) : List ℚ → ℚ
  | [] => d
  | x :: xs => xs.foldl min x

/-- Backward-pass update (spec section 4.3): lft is the critical path
length for a task with no successors, else the minimum lst over all its
successors. -/
def lftStep (w : List ℚ) (edges : List Edge) (cpl : ℚ) (acc : List ℚ)
    (i : ℕ) : ℚ :=
  listMinD cpl ((succsAll edges i).map fun j => acc.getD j 0 - w.getD j 0)

/-- The latest finish times, by the backward pass in reverse topological
order. -/
def lftList (w : List ℚ) (edges : List Edge) : List ℚ :=
  cpmFold (lftStep w edges (critical_path_length w edges))
    (List.replicate w.length 0) (List.range w.length).reverse

/-- Latest finish time of task i after the backward pass. -/
def lftOf (w : List ℚ) (edges : List Edge) (i : ℕ) : ℚ :=
  (lftList w edges).getD i 0

/-- Latest start time: lft minus the task's default work amount. -/
def lstOf (w : List ℚ) (edges : List Edge) (i : ℕ) : ℚ :=
  lftOf w edges i - w.getD i 0

/-- Well-formedness of a recorded interval list, threaded with a lower
bound: each interval has ready ≤ start ≤ finish, the first ready tick is at
least the bound, and the next interval starts strictly after this one's
finish tick (histories are append-only and ordered by tick, spec section
5). -/
def chainOKb : ℤ → List (ℤ × ℤ × ℤ) → Bool
  | _, [] => true
  | lo, (r, s, f) :: rest =>
    decide (lo ≤ r) && decide (r ≤ s) && decide (s ≤ f) &&
      chainOKb (f + 1) rest

/-- In a well-formed interval list every ready tick is at least the lower
bound. -/
theorem chain_le_first (L : List (ℤ × ℤ × ℤ)) : ∀ lo : ℤ,
    chainOKb lo L = true → ∀ (i : ℕ) (hi : i < L.length),
    lo ≤ (L.get ⟨i, hi⟩).1 := by
  induction L with
  | nil =>
    intro lo _ i hi
    exact absurd hi (by simp)
  | cons hd tl ih =>
    obtain ⟨r, s, f⟩ := hd
    intro lo h i hi
    simp only [chainOKb, Bool.and_eq_true, decide_eq_true_eq] at h
    obtain ⟨⟨⟨h1, h2⟩, h3⟩, h4⟩ := h
    cases i with
    | zero => exact h1
    | succ j =>
      have hj : j < tl.length := by simpa using hi
      have hr := ih (f + 1) h4 j hj
      show lo ≤ (tl.get ⟨j, hj⟩).1
      linarith

/-- In a well-formed interval list every interval has
ready ≤ start ≤ finish. -/
theorem chain_rsf (L : List (ℤ × ℤ × ℤ)) : ∀ lo : ℤ,
    chainOKb lo L = true → ∀ (i : ℕ) (hi : i < L.length),
    (L.get ⟨i, hi⟩).1 ≤ (L.get ⟨i, hi⟩).2.1 ∧
      (L.get ⟨i, hi⟩).2.1 ≤ (L.get ⟨i, hi⟩).2.2 := by
  induction L with
  | nil =>
    intro lo _ i hi
    exact absurd hi (by simp)
  | cons hd tl ih =>
    obtain ⟨r, s, f⟩ := hd
    intro lo h i hi
    simp only [chainOKb, Bool.and_eq_true, decide_eq_true_eq] at h
    obtain ⟨⟨⟨h1, h2⟩, h3⟩, h4⟩ := h
    cases i with
    | zero => exact ⟨h2, h3⟩
    | succ j =>
      have hj : j < tl.length := by simpa using hi
      exact ih (f + 1) h4 j hj

/-- Unfolding equation of the derived-state query for a one-interval
record. -/
theorem stateFromRecord_one (r s f t : ℤ) :
    stateFromRecord [(r, s, f)] t =
      if t < r then BaseTaskState.NONE
      else if t < s then BaseTaskState.READY
      else if t < f then BaseTaskState.WORKING
      else BaseTaskState.FINISHED := rfl

/-- Unfolding equation of the derived-state query for a record of two or
more intervals. -/
theorem stateFromRecord_two (r s f r2 s2 f2 : ℤ)
    (tl2 : List (ℤ × ℤ × ℤ)) (t : ℤ) :
    stateFromRecord ((r, s, f) :: (r2, s2, f2) :: tl2) t =
      if t < r then BaseTaskState.NONE
      else if t < s then BaseTaskState.READY
      else if t < f then BaseTaskState.WORKING
      else if t < r2 then BaseTaskState.FINISHED
      else stateFromRecord ((r2, s2, f2) :: tl2) t := rfl

/-- The derived-state query on a well-formed interval list, clause by
clause: NONE before the first ready tick; READY from an interval's ready
tick up to but excluding its start tick; WORKING from the start tick up to
but excluding the finish tick; FINISHED from the finish tick on, as long
as the next interval (when there is one) has not reached its ready
tick. -/
theorem stateFromRecord_cases (L : List (ℤ × ℤ × ℤ)) : ∀ lo : ℤ,
    chainOKb lo L = true → ∀ (t : ℤ) (i : ℕ) (hi : i < L.length),
    (i = 0 → t < (L.get ⟨i, hi⟩).1 →
      stateFromRecord L t = BaseTaskState.NONE) ∧
    ((L.get ⟨i, hi⟩).1 ≤ t → t < (L.get ⟨i, hi⟩).2.1 →
      stateFromRecord L t = BaseTaskState.READY) ∧
    ((L.get ⟨i, hi⟩).2.1 ≤ t → t < (L.get ⟨i, hi⟩).2.2 →
      stateFromRecord L t = BaseTaskState.WORKING) ∧
    ((L.get ⟨i, hi⟩).2.2 ≤ t →
      (∀ hj : i + 1 < L.length, t < (L.get ⟨i + 1, hj⟩).1) →
      stateFromRecord L t = BaseTaskState.FINISHED) := by
  induction L with
  | nil =>
    intro lo _ t i hi
    exact absurd hi (by simp)
  | cons hd tl ih =>
    obtain ⟨r, s, f⟩ := hd
    intro lo h t i hi
    simp only [chainOKb, Bool.and_eq_true, decide_eq_true_eq] at h
    obtain ⟨⟨⟨h1, h2⟩, h3⟩, h4⟩ := h
    cases i with
    | zero =>
      cases tl with
      | nil =>
        refine ⟨fun _ ht => ?_, fun ht1 ht2 => ?_, fun ht1 ht2 => ?_,
          fun ht1 _ => ?_⟩
        · have ha : t < r := ht
          rw [stateFromRecord_one, if_pos ha]
        · have ha : r ≤ t := ht1
          have hb : t < s := ht2
          rw [stateFromRecord_one, if_neg (not_lt.mpr ha), if_pos hb]
        · have ha : s ≤ t := ht1
          have hb : t < f := ht2
          rw [stateFromRecord_one, if_neg (by push_neg; linarith),
            if_neg (not_lt.mpr ha), if_pos hb]
        · have ha : f ≤ t := ht1
          rw [stateFromRecord_one, if_neg (by push_neg; linarith),
            if_neg (by push_neg; linarith), if_neg (not_lt.mpr ha)]
      | cons hd2 tl2 =>
        obtain ⟨r2, s2, f2⟩ := hd2
        refine ⟨fun _ ht => ?_, fun ht1 ht2 => ?_, fun ht1 ht2 => ?_,
          fun ht1 ht2 => ?_⟩
        · have ha : t < r := ht
          rw [stateFromRecord_two, if_pos ha]
        · have ha : r ≤ t := ht1
          have hb : t < s := ht2
          rw [stateFromRecord_two, if_neg (not_lt.mpr ha), if_pos hb]
        · have ha : s ≤ t := ht1
          have hb : t < f := ht2
          rw [stateFromRecord_two, if_neg (by push_neg; linarith),
            if_neg (not_lt.mpr ha), if_pos hb]
        · have ha : f ≤ t := ht1
          have ht3 : t < r2 := ht2 (by simp)
          rw [stateFromRecord_two, if_neg (by push_neg; linarith),
            if_neg (by push_neg; linarith), if_neg (not_lt.mpr ha),
            if_pos ht3]
    | succ j =>
      have hj : j < tl.length := by simpa using hi
      cases tl with
      | nil => exact absurd hj (by simp)
      | cons hd2 tl2 =>
        obtain ⟨r2, s2, f2⟩ := hd2
        have hg := h4
        simp only [chainOKb, Bool.and_eq_true, decide_eq_true_eq] at hg
        obtain ⟨⟨⟨g1, g2⟩, g3⟩, g4⟩ := hg
        -- the ready tick of interval j of the tail bounds t from below in
        -- every clause handled here, so the head interval lies entirely in
        -- the past and the query reduces to the tail.
        have hfirst : r2 ≤ (((r2, s2, f2) :: tl2).get ⟨j, hj⟩).1 := by
          cases j with
          | zero => exact le_refl r2
          | succ k =>
            have hk : k < tl2.length := by simpa using hj
            have hlow := chain_le_first tl2 (f2 + 1) g4 k hk
            show r2 ≤ (tl2.get ⟨k, hk⟩).1
            linarith
        have hred : (((r2, s2, f2) :: tl2).get ⟨j, hj⟩).1 ≤ t →
            stateFromRecord ((r, s, f) :: (r2, s2, f2) :: tl2) t =
              stateFromRecord ((r2, s2, f2) :: tl2) t := by
          intro ht
          have hr2t : r2 ≤ t := le_trans hfirst ht
          rw [stateFromRecord_two, if_neg (by push_neg; linarith),
            if_neg (by push_neg; linarith), if_neg (by push_neg; linarith),
            if_neg (not_lt.mpr hr2t)]
        have ihtl := ih (f + 1) h4 t j hj
        have hrs := chain_rsf ((r2, s2, f2) :: tl2) (f + 1) h4 j hj
        refine ⟨fun hz => absurd hz (by omega), fun ht1 ht2 => ?_,
          fun ht1 ht2 => ?_, fun ht1 ht2 => ?_⟩
        · rw [hred ht1]
          exact ihtl.2.1 ht1 ht2
        · rw [hred (le_trans hrs.1 ht1)]
          exact ihtl.2.2.1 ht1 ht2
        · rw [hred (le_trans (le_trans hrs.1 hrs.2) ht1)]
          refine ihtl.2.2.2 ht1 ?_
          intro hk
          exact ht2 (by simp only [List.length_cons] at hk ⊢ ; omega)

/-! ## Concrete fixtures used by the witness theorems -/

/-- Witness fixture: a facility with the given skill tables and assigned
tasks; the remaining fields take their construction defaults. -/
def mkFacility (nm : String) (solo : Bool) (mean sd : List (String × ℚ))
    (tasks : List AssignedTask) : BaseFacility :=
  { name := nm
    ID := nm
    factory_id := none
    cost_per_time := 0
    solo_working := solo
    workamount_skill_mean_map := mean
    workamount_skill_sd_map := sd
    state := BaseFacilityState.FREE
    cost_list := []
    start_time_list := []
    finish_time_list := []
    assigned_task_list := tasks
    assigned_task_id_record := [] }

/-- Witness fixture: a worker with the given solo flag and skill tables. -/
def mkWorker (nm : String) (solo : Bool) (mean fmap : List (String × ℚ)) :
    BaseWorker :=
  { name := nm
    solo_working := solo
    workamount_skill_mean_map := mean
    facility_skill_map := fmap }

/-- Witness fixture: a task with the given progress parameters, state,
histories and allocations. -/
def mkTask (nm : String) (dwa dp : ℚ) (st : BaseTaskState)
    (rl sl fl : List ℤ) (aw : List BaseWorker) (af : List BaseFacility) :
    BaseTask :=
  { name := nm
    default_work_amount := dwa
    default_progress := dp
    auto_task := false
    est := 0
    eft := 0
    lst := -1
    lft := -1
    remaining_work_amount := dwa * (1 - dp)
    state := st
    ready_time_list := rl
    start_time_list := sl
    finish_time_list := fl
    allocated_worker_list := aw
    allocated_facility_list := af }

/-! ## Claim theorems -/

/-- C10: BaseFacility.initialize is idempotent: a second call yields
exactly the facility state of one call, namely state FREE, the five
record lists empty, and every constraint parameter unchanged. -/
theorem facility_reset_idempotent (f : BaseFacility) :
    BaseFacility.initialize ( BaseFacility.initialize f) =
      BaseFacility.initialize f ∧
    ( BaseFacility.initialize f).state = BaseFacilityState.FREE ∧
    ( BaseFacility.initialize f).cost_list = [] ∧
    ( BaseFacility.initialize f).start_time_list = [] ∧
    ( BaseFacility.initialize f).finish_time_list = [] ∧
    ( BaseFacility.initialize f).assigned_task_list = [] ∧
    ( BaseFacility.initialize f).assigned_task_id_record = [] ∧
    ( BaseFacility.initialize f).name = f.name ∧
    ( BaseFacility.initialize f).ID = f.ID ∧
    ( BaseFacility.initialize f).factory_id = f.factory_id ∧
    ( BaseFacility.initialize f).cost_per_time = f.cost_per_time ∧
    ( BaseFacility.initialize f).solo_working = f.solo_working ∧
    ( BaseFacility.initialize f).workamount_skill_mean_map =
      f.workamount_skill_mean_map ∧
    ( BaseFacility.initialize f).workamount_skill_sd_map =
      f.workamount_skill_sd_map := by
  exact ⟨rfl, rfl, rfl, rfl, rfl, rfl, rfl, rfl, rfl, rfl, rfl, rfl, rfl, rfl⟩

/-- C8: a task name absent from the mean map, or present with a mean not
strictly above the tolerance, has no workamount skill, and the progress
query returns exactly 0 without raising, whatever the sd map, the seed and
the assigned tasks. -/
theorem no_skill_zero_progress (f : BaseFacility) (task_name : String)
    (h : ∀ m, f.workamount_skill_mean_map.lookup task_name = some m →
      m ≤ errorTol) :
    f.has_workamount_skill task_name errorTol = false ∧
    ∀ seed rng, f.get_work_amount_skill_progress task_name seed rng =
      some 0 := by
  have hfalse : f.has_workamount_skill task_name errorTol = false := by
    unfold BaseFacility.has_workamount_skill
    cases hl : f.workamount_skill_mean_map.lookup task_name with
    | none => rfl
    | some m =>
      have hm := h m hl
      simp only [decide_eq_false_iff_not, not_lt, zero_add]
      exact hm
  refine ⟨hfalse, fun seed rng => ?_⟩
  unfold BaseFacility.get_work_amount_skill_progress
  simp [hfalse]

/-- C8 witness: a facility with an empty skill table has no skill for the
name task and reports zero progress. -/
theorem no_skill_zero_progress_witness :
    ( mkFacility "r" false [] [] []).has_workamount_skill "task" errorTol =
      false ∧
    ∀ seed rng,
      ( mkFacility "r" false [] [] []).get_work_amount_skill_progress
        "task" seed rng = some 0 :=
  no_skill_zero_progress ( mkFacility "r" false [] [] []) "task"
    (fun m hm => by simp [ mkFacility] at hm)

/-- C4: a facility with mean m above the tolerance for a task name, sd 0 or
absent for that name, and exactly k at-least-one assigned tasks in state
WORKING or WORKING_ADDITIONALLY contributes exactly m / k to that task this
tick. -/
theorem skill_progress_split (f : BaseFacility) (task_name : String)
    (m : ℚ) (k : ℕ)
    (hm : f.workamount_skill_mean_map.lookup task_name = some m)
    (hmtol : errorTol < m)
    (hsd : f.workamount_skill_sd_map.lookup task_name = none ∨
      f.workamount_skill_sd_map.lookup task_name = some 0)
    (hk : f.countWorking = k) (hk1 : 1 ≤ k) (seed : Option ℕ) (rng : ℕ) :
    f.get_work_amount_skill_progress task_name seed rng =
      some (m / (k : ℚ)) := by
  have hskill : f.has_workamount_skill task_name errorTol = true := by
    unfold BaseFacility.has_workamount_skill
    rw [hm]
    simp only [decide_eq_true_eq, zero_add]
    exact hmtol
  have hk0 : ¬ (k = 0) := by omega
  have hsd0 : (f.workamount_skill_sd_map.lookup task_name).getD 0 = 0 := by
    cases hsd with
    | inl h0 => rw [h0]; rfl
    | inr h0 => rw [h0]; rfl
  unfold BaseFacility.get_work_amount_skill_progress
  rw [hskill]
  simp only [if_true, hm, hsd0, hk, Option.getD_some, if_neg hk0,
    normalSample, zero_mul, add_zero]

/-- C4 witness: skill mean 1 with sd absent, split across two working
tasks, contributes exactly 1/2. -/
theorem skill_progress_split_witness :
    ( mkFacility "w1" false [("task", 1)] []
        [⟨ "t1", BaseTaskState.WORKING⟩,
         ⟨ "t2", BaseTaskState.WORKING_ADDITIONALLY⟩]
      ).get_work_amount_skill_progress "task" (some 1234) 0 =
      some (1 / 2) := by
  have h := skill_progress_split
    ( mkFacility "w1" false [("task", 1)] []
      [⟨ "t1", BaseTaskState.WORKING⟩,
       ⟨ "t2", BaseTaskState.WORKING_ADDITIONALLY⟩])
    "task" 1 2 (by decide) (by norm_num [errorTol]) (Or.inl (by decide))
    (by decide) (by decide) (some 1234) 0
  simpa using h

/-- C6: whenever at least one task assigned to the facility is WORKING or
WORKING_ADDITIONALLY, the divisor of get_work_amount_skill_progress is
positive, so the division-by-zero branch is unreachable and the call
returns a defined value. -/
theorem skill_progress_defined (f : BaseFacility) (task_name : String)
    (seed : Option ℕ) (rng : ℕ)
    (h : ∃ task ∈ f.assigned_task_list,
      task.state = BaseTaskState.WORKING ∨
      task.state = BaseTaskState.WORKING_ADDITIONALLY) :
    (f.get_work_amount_skill_progress task_name seed rng).isSome = true := by
  have hk : 0 < f.countWorking := by
    unfold BaseFacility.countWorking
    rw [List.countP_pos_iff]
    obtain ⟨a, ha, hs⟩ := h
    exact ⟨a, ha, by simpa using hs⟩
  have hk0 : ¬ (f.countWorking = 0) := by omega
  unfold BaseFacility.get_work_amount_skill_progress
  by_cases hs : f.has_workamount_skill task_name errorTol = true
  · simp [hs, hk0]
  · simp [hs]

/-- C6 witness: one WORKING assigned task makes the call defined. -/
theorem skill_progress_defined_witness :
    (( mkFacility "w1" false [("task", 1)] []
        [⟨ "t1", BaseTaskState.WORKING⟩]
      ).get_work_amount_skill_progress "task" none 7).isSome = true :=
  skill_progress_defined
    ( mkFacility "w1" false [("task", 1)] [] [⟨ "t1", BaseTaskState.WORKING⟩])
    "task" none 7
    ⟨⟨ "t1", BaseTaskState.WORKING⟩, by decide, Or.inl rfl⟩

/-- C7: with an explicit seed, the progress draw is reproducible: two
facilities with the same skill tables and the same assigned-task states
return the same value for the same task name and seed, whatever the
ambient generator states. -/
theorem skill_progress_reproducible (f g : BaseFacility)
    (task_name : String) (s rng1 rng2 : ℕ)
    (hmean : f.workamount_skill_mean_map = g.workamount_skill_mean_map)
    (hsd : f.workamount_skill_sd_map = g.workamount_skill_sd_map)
    (hst : f.assigned_task_list.map (fun task => task.state) =
      g.assigned_task_list.map (fun task => task.state)) :
    f.get_work_amount_skill_progress task_name (some s) rng1 =
      g.get_work_amount_skill_progress task_name (some s) rng2 := by
  have hcount : f.countWorking = g.countWorking := by
    unfold BaseFacility.countWorking
    have hf := List.countP_map
      (fun st => decide (st = BaseTaskState.WORKING ∨
        st = BaseTaskState.WORKING_ADDITIONALLY))
      (fun task : AssignedTask => task.state) (l := f.assigned_task_list)
    have hg := List.countP_map
      (fun st => decide (st = BaseTaskState.WORKING ∨
        st = BaseTaskState.WORKING_ADDITIONALLY))
      (fun task : AssignedTask => task.state) (l := g.assigned_task_list)
    calc f.assigned_task_list.countP _ = _ := hf.symm
      _ = _ := by rw [hst]
      _ = _ := hg
  unfold BaseFacility.get_work_amount_skill_progress
    BaseFacility.has_workamount_skill
  rw [hmean, hsd, hcount]
  simp only [Option.getD_some]

/-- C7 witness: the same seed gives the same draw for two copies of a
facility that differ only in the ambient generator state. -/
theorem skill_progress_reproducible_witness :
    ( mkFacility "w1" false [("task", 1)] [("task", 2)]
        [⟨ "t1", BaseTaskState.WORKING⟩]
      ).get_work_amount_skill_progress "task" (some 42) 3 =
    ( mkFacility "w1" false [("task", 1)] [("task", 2)]
        [⟨ "t1", BaseTaskState.WORKING⟩]
      ).get_work_amount_skill_progress "task" (some 42) 99 :=
  skill_progress_reproducible _ _ "task" 42 3 99 rfl rfl rfl

/-- C2 (amended): on a task whose recorded intervals are well formed, the
derived-state query returns NONE before the first ready tick, READY from a
ready tick up to but excluding the matching start tick, WORKING from the
start tick up to but excluding the matching finish tick, and FINISHED from
the finish tick on while no later interval has begun.  (The claim's
original boundary, WORKING up to and including the finish tick, is refuted
by the counterexample theorem.) -/
theorem record_state_cases (task : BaseTask) (lo : ℤ)
    (hc : chainOKb lo task.recordIntervals = true) (t : ℤ) (i : ℕ)
    (hi : i < task.recordIntervals.length) :
    (i = 0 → t < (task.recordIntervals.get ⟨i, hi⟩).1 →
      task.get_state_from_record t = BaseTaskState.NONE) ∧
    ((task.recordIntervals.get ⟨i, hi⟩).1 ≤ t →
      t < (task.recordIntervals.get ⟨i, hi⟩).2.1 →
      task.get_state_from_record t = BaseTaskState.READY) ∧
    ((task.recordIntervals.get ⟨i, hi⟩).2.1 ≤ t →
      t < (task.recordIntervals.get ⟨i, hi⟩).2.2 →
      task.get_state_from_record t = BaseTaskState.WORKING) ∧
    ((task.recordIntervals.get ⟨i, hi⟩).2.2 ≤ t →
      (∀ hj : i + 1 < task.recordIntervals.length,
        t < (task.recordIntervals.get ⟨i + 1, hj⟩).1) →
      task.get_state_from_record t = BaseTaskState.FINISHED) :=
  stateFromRecord_cases task.recordIntervals lo hc t i hi

/-- C2 witness: on the record of the repository's own test (ready 1 and 5,
start 2 and 6, finish 3 and 7), tick 6 lies in the second interval's
working span and the query answers WORKING. -/
theorem record_state_cases_witness :
    ( mkTask "t1" 10 0 BaseTaskState.NONE [1, 5] [2, 6] [3, 7] [] []
      ).get_state_from_record 6 = BaseTaskState.WORKING :=
  (record_state_cases
    ( mkTask "t1" 10 0 BaseTaskState.NONE [1, 5] [2, 6] [3, 7] [] [])
    0 (by decide) 6 1 (by decide)).2.2.1 (by decide) (by decide)

/-- C2 counterexample: with the single recorded interval ready 1, start 2,
finish 3 (the first interval of the repository's test data), the derived
state at the exact finish tick 3 is FINISHED and not WORKING, refuting the
claim's boundary rule that WORKING extends up to and including the finish
tick. -/
theorem record_state_finish_tick_cex :
    ( mkTask "t1" 10 0 BaseTaskState.NONE [1] [2] [3] [] []
      ).get_state_from_record 3 = BaseTaskState.FINISHED ∧
    ¬ ( mkTask "t1" 10 0 BaseTaskState.NONE [1] [2] [3] [] []
      ).get_state_from_record 3 = BaseTaskState.WORKING := by
  decide

/-- C3: for a task whose record is one occupancy interval (r, s, f), the
derived state is WORKING at every tick strictly between the start and
finish ticks, FINISHED at the exact finish tick, and FINISHED one tick
past the finish tick (terminal, not reverting to NONE). -/
theorem record_state_terminal (task : BaseTask) (r s f : ℤ)
    (hr : task.ready_time_list = [r]) (hs : task.start_time_list = [s])
    (hf : task.finish_time_list = [f]) (h1 : r ≤ s) (h2 : s ≤ f) :
    (∀ t : ℤ, s < t → t < f →
      task.get_state_from_record t = BaseTaskState.WORKING) ∧
    task.get_state_from_record f = BaseTaskState.FINISHED ∧
    task.get_state_from_record (f + 1) = BaseTaskState.FINISHED := by
  unfold BaseTask.get_state_from_record BaseTask.recordIntervals
  rw [hr, hs, hf]
  refine ⟨fun t ha hb => ?_, ?_, ?_⟩
  · show stateFromRecord [(r, s, f)] t = BaseTaskState.WORKING
    rw [stateFromRecord_one, if_neg (by push_neg; linarith),
      if_neg (by push_neg; linarith), if_pos hb]
  · show stateFromRecord [(r, s, f)] f = BaseTaskState.FINISHED
    rw [stateFromRecord_one, if_neg (by push_neg; linarith),
      if_neg (by push_neg; linarith), if_neg (by push_neg; linarith)]
  · show stateFromRecord [(r, s, f)] (f + 1) = BaseTaskState.FINISHED
    rw [stateFromRecord_one, if_neg (by push_neg; linarith),
      if_neg (by push_neg; linarith), if_neg (by push_neg; linarith)]

/-- C3 witness: interval ready 1, start 2, finish 5: WORKING at tick 3,
FINISHED at tick 5 and at tick 6. -/
theorem record_state_terminal_witness :
    ( mkTask "t1" 10 0 BaseTaskState.NONE [1] [2] [5] [] []
      ).get_state_from_record 3 = BaseTaskState.WORKING ∧
    ( mkTask "t1" 10 0 BaseTaskState.NONE [1] [2] [5] [] []
      ).get_state_from_record 5 = BaseTaskState.FINISHED ∧
    ( mkTask "t1" 10 0 BaseTaskState.NONE [1] [2] [5] [] []
      ).get_state_from_record 6 = BaseTaskState.FINISHED := by
  have h := record_state_terminal
    ( mkTask "t1" 10 0 BaseTaskState.NONE [1] [2] [5] [] [])
    1 2 5 rfl rfl rfl (by decide) (by decide)
  exact ⟨h.1 3 (by decide) (by decide), h.2.1, h.2.2⟩

/-- C5: can_add_resources refuses whenever the task state is NONE or
FINISHED; refuses a call with no resource arguments; refuses every call
once a solo-working resource is among the task's allocated resources; and
symmetrically refuses a call requesting a solo-working resource while the
task already has any allocated resource. -/
theorem can_add_resources_refusals (task : BaseTask)
    (worker : Option BaseWorker) (facility : Option BaseFacility) :
    ((task.state = BaseTaskState.NONE ∨ task.state = BaseTaskState.FINISHED) →
      task.can_add_resources worker facility = false) ∧
    (task.can_add_resources none none = false) ∧
    (((∃ w ∈ task.allocated_worker_list, w.solo_working = true) ∨
      (∃ f ∈ task.allocated_facility_list, f.solo_working = true)) →
      task.can_add_resources worker facility = false) ∧
    ((optWorkerSolo worker = true ∨ optFacilitySolo facility = true) →
      (task.allocated_worker_list ≠ [] ∨ task.allocated_facility_list ≠ []) →
      task.can_add_resources worker facility = false) := by
  unfold BaseTask.can_add_resources
  refine ⟨fun h => ?_, ?_, fun h => ?_, fun h1 h2 => ?_⟩
  · rw [if_pos h]
  · split_ifs <;> simp_all
  · split_ifs <;> simp_all
  · split_ifs <;> simp_all

/-- C9: after a task reset, the remaining work equals
default_work_amount * (1 - default_progress), the histories and
allocations are cleared, and the state is NONE, READY or FINISHED exactly
per the progress thresholds 0, (0, 1) and 1. -/
theorem task_reset_state (t : BaseTask) :
    ( BaseTask.initialize t).remaining_work_amount =
      t.default_work_amount * (1 - t.default_progress) ∧
    ( BaseTask.initialize t).ready_time_list = [] ∧
    ( BaseTask.initialize t).start_time_list = [] ∧
    ( BaseTask.initialize t).finish_time_list = [] ∧
    ( BaseTask.initialize t).allocated_worker_list = [] ∧
    ( BaseTask.initialize t).allocated_facility_list = [] ∧
    (t.default_progress = 0 →
      ( BaseTask.initialize t).state = BaseTaskState.NONE) ∧
    (0 < t.default_progress → t.default_progress < 1 →
      ( BaseTask.initialize t).state = BaseTaskState.READY) ∧
    (t.default_progress = 1 →
      ( BaseTask.initialize t).state = BaseTaskState.FINISHED) := by
  unfold BaseTask.initialize
  refine ⟨rfl, rfl, rfl, rfl, rfl, rfl, ?_, ?_, ?_⟩
  · intro h
    simp [h]
  · intro h1 h2
    rw [if_neg h1.ne', if_pos ⟨h1, h2⟩]
  · intro h
    rw [h]
    norm_num

/-! ## Order and membership lemmas for the CPM passes -/

/-- The seed of a left max-fold bounds the result from below. -/
theorem foldl_max_init (l : List ℚ) : ∀ a : ℚ, a ≤ l.foldl max a := by
  induction l with
  | nil => intro a; exact le_refl a
  | cons x xs ih =>
    intro a
    exact le_trans (le_max_left a x) (ih (max a x))

/-- Every member of the list bounds a left max-fold from below. -/
theorem le_foldl_max (l : List ℚ) : ∀ (a x : ℚ), x ∈ l → x ≤ l.foldl max a := by
  induction l with
  | nil => intro a x hx; exact absurd hx (by simp)
  | cons y ys ih =>
    intro a x hx
    rcases List.mem_cons.mp hx with h | h
    · subst h
      exact le_trans (le_max_right a x) (foldl_max_init ys (max a x))
    · exact ih (max a y) x h

/-- A left max-fold is the seed or a member of the list. -/
theorem foldl_max_mem (l : List ℚ) : ∀ a : ℚ,
    l.foldl max a = a ∨ l.foldl max a ∈ l := by
  induction l with
  | nil => intro a; exact Or.inl rfl
  | cons x xs ih =>
    intro a
    rcases ih (max a x) with h | h
    · rcases max_choice a x with hm | hm
      · exact Or.inl (by rw [List.foldl_cons, h, hm])
      · refine Or.inr (List.mem_cons.mpr (Or.inl ?_))
        rw [List.foldl_cons, h, hm]
    · exact Or.inr (List.mem_cons.mpr (Or.inr h))

/-- A lower bound of every member of a nonempty list bounds its
default-valued minimum. -/
theorem le_listMinD (l : List ℚ) (d b : ℚ) (hne : l ≠ [])
    (hb : ∀ y ∈ l, b ≤ y) : b ≤ listMinD d l := by
  cases l with
  | nil => exact absurd rfl hne
  | cons x xs =>
    show b ≤ xs.foldl min x
    clear hne
    induction xs generalizing x with
    | nil => exact hb x (by simp)
    | cons y ys ih =>
      show b ≤ ys.foldl min (min x y)
      refine ih (min x y) ?_
      intro z hz
      rcases List.mem_cons.mp hz with h | h
      · rw [h]
        exact le_min (hb x (by simp)) (hb y (by simp))
      · exact hb z (by simp [h])

/-- Membership in fsPreds is exactly a Finish-Start edge into the task. -/
theorem fsPreds_mem (edges : List Edge) (j p : ℕ) :
    p ∈ fsPreds edges j ↔ (p, j, BaseTaskDependency.FS) ∈ edges := by
  unfold fsPreds
  simp only [List.mem_map, List.mem_filter, decide_eq_true_eq]
  constructor
  · rintro ⟨⟨e1, e2, e3⟩, ⟨he, hj, hk⟩, hp⟩
    simp only at hj hk hp
    subst hj
    subst hk
    subst hp
    exact he
  · intro he
    exact ⟨(p, j, BaseTaskDependency.FS), ⟨he, rfl, rfl⟩, rfl⟩

/-- Membership in predsAll is exactly an edge of some kind into the
task. -/
theorem predsAll_mem (edges : List Edge) (j p : ℕ) :
    p ∈ predsAll edges j ↔ ∃ k, (p, j, k) ∈ edges := by
  unfold predsAll
  simp only [List.mem_map, List.mem_filter, decide_eq_true_eq]
  constructor
  · rintro ⟨⟨e1, e2, e3⟩, ⟨he, hj⟩, hp⟩
    simp only at hj hp
    subst hj
    subst hp
    exact ⟨e3, he⟩
  · rintro ⟨k, he⟩
    exact ⟨(p, j, k), ⟨he, rfl⟩, rfl⟩

/-- Membership in succsAll is exactly an edge of some kind out of the
task. -/
theorem succsAll_mem (edges : List Edge) (i j : ℕ) :
    j ∈ succsAll edges i ↔ ∃ k, (i, j, k) ∈ edges := by
  unfold succsAll
  simp only [List.mem_map, List.mem_filter, decide_eq_true_eq]
  constructor
  · rintro ⟨⟨e1, e2, e3⟩, ⟨he, hi⟩, hj⟩
    simp only at hi hj
    subst hi
    subst hj
    exact ⟨e3, he⟩
  · rintro ⟨k, he⟩
    exact ⟨(i, j, k), ⟨he, rfl⟩, rfl⟩

/-! ## Fixpoint characterisation of the two CPM passes -/

/-- getD after setting a different position is unchanged. -/
theorem getD_set_ne (l : List ℚ) (i j : ℕ) (v : ℚ) (h : i ≠ j) :
    (l.set i v).getD j 0 = l.getD j 0 := by
  simp [List.getD_eq_getElem?_getD, List.getElem?_set_ne h]

/-- getD at a position just set (inside the list) gives the new value. -/
theorem getD_set_self (l : List ℚ) (i : ℕ) (v : ℚ) (h : i < l.length) :
    (l.set i v).getD i 0 = v := by
  simp [List.getD_eq_getElem?_getD, List.getElem?_set_self h]

/-- A CPM pass over the concatenation of two orders is the second pass run
on the result of the first. -/
theorem cpmFold_append (step : List ℚ → ℕ → ℚ) (init : List ℚ)
    (l1 l2 : List ℕ) :
    cpmFold step init (l1 ++ l2) = cpmFold step (cpmFold step init l1) l2 := by
  unfold cpmFold
  exact List.foldl_append _ _ _ _

/-- After the ascending pass over the first k indices, provided each update
reads only positions below its index, every processed position holds the
fixpoint value of its update. -/
theorem cpmFold_fix_ascend (step : List ℚ → ℕ → ℚ) (n : ℕ)
    (hstep : ∀ (acc acc2 : List ℚ) (i : ℕ), i < n →
      (∀ p, p < i → acc.getD p 0 = acc2.getD p 0) →
      step acc i = step acc2 i) :
    ∀ k, k ≤ n →
      (cpmFold step (List.replicate n 0) (List.range k)).length = n ∧
      ∀ i, i < k →
        (cpmFold step (List.replicate n 0) (List.range k)).getD i 0 =
          step (cpmFold step (List.replicate n 0) (List.range k)) i := by
  intro k
  induction k with
  | zero =>
    intro _
    refine ⟨by simp [cpmFold], ?_⟩
    intro i hi
    exact absurd hi (by omega)
  | succ k ih =>
    intro hk1
    obtain ⟨ihlen, ihfix⟩ := ih (by omega)
    have hsucc : cpmFold step (List.replicate n 0) (List.range (k + 1)) =
        (cpmFold step (List.replicate n 0) (List.range k)).set k
          (step (cpmFold step (List.replicate n 0) (List.range k)) k) := by
      rw [List.range_succ, cpmFold_append]
      rfl
    have hklen : k < (cpmFold step (List.replicate n 0)
        (List.range k)).length := by
      rw [ihlen]
      omega
    constructor
    · rw [hsucc, List.length_set]
      exact ihlen
    · intro i hi
      rw [hsucc]
      rcases Nat.lt_or_ge i k with hik | hik
      · rw [getD_set_ne _ _ _ _ (by omega), ihfix i hik]
        refine hstep _ _ i (by omega) ?_
        intro p hp
        rw [getD_set_ne _ _ _ _ (by omega)]
      · have hik2 : i = k := by omega
        subst hik2
        rw [getD_set_self _ _ _ hklen]
        refine hstep _ _ i (by omega) ?_
        intro p hp
        rw [getD_set_ne _ _ _ _ (by omega)]

/-- After the descending pass over indices k-1, ..., 0, provided each
update reads only positions above its index and the starting list is a
fixpoint at positions at or above k, the whole result is a fixpoint. -/
theorem cpmFold_fix_descend (step : List ℚ → ℕ → ℚ) (n : ℕ)
    (hstep : ∀ (acc acc2 : List ℚ) (i : ℕ), i < n →
      (∀ p, i < p → acc.getD p 0 = acc2.getD p 0) →
      step acc i = step acc2 i) :
    ∀ k, k ≤ n → ∀ acc : List ℚ, acc.length = n →
      (∀ i, k ≤ i → i < n → acc.getD i 0 = step acc i) →
      (cpmFold step acc (List.range k).reverse).length = n ∧
      ∀ i, i < n →
        (cpmFold step acc (List.range k).reverse).getD i 0 =
          step (cpmFold step acc (List.range k).reverse) i := by
  intro k
  induction k with
  | zero =>
    intro _ acc hlen hfix
    exact ⟨hlen, fun i hi => hfix i (by omega) hi⟩
  | succ k ih =>
    intro hk1 acc hlen hfix
    have hkn : k < n := by omega
    have hrev : (List.range (k + 1)).reverse = k :: (List.range k).reverse := by
      rw [List.range_succ, List.reverse_append]
      rfl
    have hsucc : cpmFold step acc ((List.range (k + 1)).reverse) =
        cpmFold step (acc.set k (step acc k)) ((List.range k).reverse) := by
      rw [hrev]
      rfl
    rw [hsucc]
    refine ih (by omega) (acc.set k (step acc k))
      (by rw [List.length_set]; exact hlen) ?_
    intro i hki hin
    rcases Nat.eq_or_lt_of_le hki with heq | hlt
    · have hik : i = k := heq.symm
      subst hik
      rw [getD_set_self _ _ _ (by rw [hlen]; omega)]
      refine hstep _ _ i hin ?_
      intro p hp
      rw [getD_set_ne _ _ _ _ (by omega)]
    · rw [getD_set_ne _ _ _ _ (by omega), hfix i (by omega) hin]
      refine hstep _ _ i hin ?_
      intro p hp
      rw [getD_set_ne _ _ _ _ (by omega)]

/-- The forward update reads only positions strictly below its index. -/
theorem estStep_congr (w : List ℚ) (edges : List Edge)
    (hwf : EdgesWF w edges) (acc acc2 : List ℚ) (i : ℕ)
    (hagree : ∀ p, p < i → acc.getD p 0 = acc2.getD p 0) :
    estStep w edges acc i = estStep w edges acc2 i := by
  unfold estStep
  by_cases h : predsAll edges i = []
  · rw [if_pos h, if_pos h]
  · have hmap : (fsPreds edges i).map (fun p => acc.getD p 0 + w.getD p 0) =
        (fsPreds edges i).map (fun p => acc2.getD p 0 + w.getD p 0) := by
      refine List.map_congr_left ?_
      intro p hp
      have hedge := (fsPreds_mem edges i p).mp hp
      rw [hagree p (hwf _ hedge).1]
    rw [if_neg h, if_neg h, hmap]

/-- The backward update reads only positions strictly above its index. -/
theorem lftStep_congr (w : List ℚ) (edges : List Edge) (cpl : ℚ)
    (hwf : EdgesWF w edges) (acc acc2 : List ℚ) (i : ℕ)
    (hagree : ∀ p, i < p → acc.getD p 0 = acc2.getD p 0) :
    lftStep w edges cpl acc i = lftStep w edges cpl acc2 i := by
  unfold lftStep
  have hmap : (succsAll edges i).map (fun j => acc.getD j 0 - w.getD j 0) =
      (succsAll edges i).map (fun j => acc2.getD j 0 - w.getD j 0) := by
    refine List.map_congr_left ?_
    intro j hj
    obtain ⟨k, hedge⟩ := (succsAll_mem edges i j).mp hj
    rw [hagree j (hwf _ hedge).1]
  rw [hmap]

/-- The forward pass computes the spec's est equations. -/
theorem estList_fix (w : List ℚ) (edges : List Edge)
    (hwf : EdgesWF w edges) : ∀ i, i < w.length →
    estOf w edges i = estStep w edges (estList w edges) i := by
  intro i hi
  have h := cpmFold_fix_ascend (estStep w edges) w.length
    (fun acc acc2 j hj hagree => estStep_congr w edges hwf acc acc2 j hagree)
    w.length (le_refl _)
  exact h.2 i hi

/-- The length of the forward pass result. -/
theorem estList_length (w : List ℚ) (edges : List Edge)
    (hwf : EdgesWF w edges) : (estList w edges).length = w.length := by
  have h := cpmFold_fix_ascend (estStep w edges) w.length
    (fun acc acc2 j hj hagree => estStep_congr w edges hwf acc acc2 j hagree)
    w.length (le_refl _)
  exact h.1

/-- The backward pass computes the spec's lft equations. -/
theorem lftList_fix (w : List ℚ) (edges : List Edge)
    (hwf : EdgesWF w edges) : ∀ i, i < w.length →
    lftOf w edges i =
      lftStep w edges (critical_path_length w edges) (lftList w edges) i := by
  intro i hi
  have h := cpmFold_fix_descend
    (lftStep w edges (critical_path_length w edges)) w.length
    (fun acc acc2 j hj hagree =>
      lftStep_congr w edges (critical_path_length w edges) hwf acc acc2 j
        hagree)
    w.length (le_refl _) (List.replicate w.length 0)
    (by simp) (fun j hj1 hj2 => absurd hj2 (by omega))
  exact h.2 i hi

/-- The empty-list equation of listMinD. -/
theorem listMinD_nil (d : ℚ) : listMinD d [] = d := rfl

/-- Earliest start times are nonnegative. -/
theorem est_nonneg (w : List ℚ) (edges : List Edge) (hwf : EdgesWF w edges) :
    ∀ i, i < w.length → 0 ≤ estOf w edges i := by
  intro i hi
  rw [estList_fix w edges hwf i hi]
  unfold estStep
  by_cases h : predsAll edges i = []
  · rw [if_pos h]
  · rw [if_neg h]
    exact foldl_max_init _ 0

/-- Every sink's earliest finish time is bounded by the critical path
length. -/
theorem eft_le_cpl (w : List ℚ) (edges : List Edge) (_hwf : EdgesWF w edges) :
    ∀ i, i < w.length → succsAll edges i = [] →
    eftOf w edges i ≤ critical_path_length w edges := by
  intro i hi hs
  unfold critical_path_length
  refine le_foldl_max _ 0 _ ?_
  refine List.mem_map.mpr ⟨i, ?_, rfl⟩
  unfold sinksOf
  exact List.mem_filter.mpr ⟨List.mem_range.mpr hi, by simp [hs]⟩

/-- Along a Finish-Start edge the successor starts no earlier than the
predecessor finishes. -/
theorem fs_edge_bound (w : List ℚ) (edges : List Edge)
    (hwf : EdgesWF w edges) : ∀ p j,
    (p, j, BaseTaskDependency.FS) ∈ edges →
    eftOf w edges p ≤ estOf w edges j := by
  intro p j he
  have hj : j < w.length := (hwf _ he).2
  rw [estList_fix w edges hwf j hj]
  unfold estStep
  have hne : predsAll edges j ≠ [] :=
    List.ne_nil_of_mem ((predsAll_mem edges j p).mpr ⟨_, he⟩)
  rw [if_neg hne]
  refine le_foldl_max _ 0 _ ?_
  exact List.mem_map.mpr ⟨p, (fsPreds_mem edges j p).mpr he, rfl⟩

/-- On an all-Finish-Start graph, every task can finish by its latest
finish time: eft ≤ lft, by downward induction from the sinks. -/
theorem eft_le_lft_aux (w : List ℚ) (edges : List Edge)
    (hwf : EdgesWF w edges)
    (hfs : ∀ e ∈ edges, e.2.2 = BaseTaskDependency.FS) :
    ∀ d i, i < w.length → w.length - i ≤ d →
    eftOf w edges i ≤ lftOf w edges i := by
  intro d
  induction d with
  | zero =>
    intro i hi hd
    omega
  | succ d ih =>
    intro i hi hd
    rw [lftList_fix w edges hwf i hi]
    unfold lftStep
    by_cases hs : succsAll edges i = []
    · rw [hs, List.map_nil, listMinD_nil]
      exact eft_le_cpl w edges hwf i hi hs
    · refine le_listMinD _ _ _ ?_ ?_
      · intro hmap
        exact hs (List.map_eq_nil_iff.mp hmap)
      · intro y hy
        obtain ⟨j, hj, rfl⟩ := List.mem_map.mp hy
        obtain ⟨k, hedge⟩ := (succsAll_mem edges i j).mp hj
        have hk : k = BaseTaskDependency.FS := hfs _ hedge
        subst hk
        have hij : i < j := (hwf _ hedge).1
        have hjn : j < w.length := (hwf _ hedge).2
        have hjlft := ih j hjn (by omega)
        have hbound := fs_edge_bound w edges hwf i j hedge
        have hestj : estOf w edges j = eftOf w edges j - w.getD j 0 := by
          unfold eftOf
          ring
        show eftOf w edges i ≤ (lftList w edges).getD j 0 - w.getD j 0
        calc eftOf w edges i ≤ estOf w edges j := hbound
          _ = eftOf w edges j - w.getD j 0 := hestj
          _ ≤ lftOf w edges j - w.getD j 0 := by
              have := hjlft
              unfold lftOf at this ⊢
              linarith

/-- getD inside the list is the element there. -/
theorem getD_eq_getElem_of_lt (l : List ℚ) (i : ℕ) (h : i < l.length) :
    l.getD i 0 = l[i] := by
  rw [List.getD_eq_getElem?_getD, List.getElem?_eq_getElem h]
  rfl

/-- C1 (amended): after the workflow CPM recomputation on a topologically
numbered (hence acyclic) task graph: est is 0 for every task with no
predecessors; est of the successor is at least eft of the predecessor
along every Finish-Start edge; the critical path length bounds the eft of
every sink and is attained at a sink (whenever a sink exists and work
amounts are nonnegative); lft - lst equals the task's default work amount
for every task; and, on a graph whose dependency edges are all
Finish-Start, est ≤ lst for every task.  The restriction of the last
conjunct to all-Finish-Start graphs is what the counterexample theorem
forces: with a Start-Start edge the spec's own pass equations violate
est ≤ lst. -/
theorem cpm_bounds (w : List ℚ) (edges : List Edge) (hwf : EdgesWF w edges) :
    (∀ i, i < w.length → predsAll edges i = [] → estOf w edges i = 0) ∧
    (∀ p j, (p, j, BaseTaskDependency.FS) ∈ edges →
      eftOf w edges p ≤ estOf w edges j) ∧
    (∀ i, i < w.length → succsAll edges i = [] →
      eftOf w edges i ≤ critical_path_length w edges) ∧
    ((∃ i, i < w.length ∧ succsAll edges i = []) → (∀ x ∈ w, 0 ≤ x) →
      ∃ i, i < w.length ∧ succsAll edges i = [] ∧
        critical_path_length w edges = eftOf w edges i) ∧
    (∀ i, lftOf w edges i - lstOf w edges i = w.getD i 0) ∧
    ((∀ e ∈ edges, e.2.2 = BaseTaskDependency.FS) →
      ∀ i, i < w.length → estOf w edges i ≤ lstOf w edges i) := by
  refine ⟨?_, fs_edge_bound w edges hwf, eft_le_cpl w edges hwf, ?_, ?_, ?_⟩
  · intro i hi hp
    rw [estList_fix w edges hwf i hi]
    unfold estStep
    rw [if_pos hp]
  · rintro ⟨i0, hi0, hs0⟩ hnn
    rcases foldl_max_mem
        ((sinksOf w edges).map fun i => eftOf w edges i) 0 with h | h
    · refine ⟨i0, hi0, hs0, ?_⟩
      have h1 := eft_le_cpl w edges hwf i0 hi0 hs0
      have h2 : 0 ≤ eftOf w edges i0 := by
        have hw : 0 ≤ w.getD i0 0 := by
          rw [getD_eq_getElem_of_lt w i0 hi0]
          exact hnn _ (List.getElem_mem hi0)
        have he := est_nonneg w edges hwf i0 hi0
        unfold eftOf
        linarith
      have hcpl : critical_path_length w edges = 0 := h
      rw [hcpl] at h1 ⊢
      linarith
    · obtain ⟨i, hisink, heq⟩ := List.mem_map.mp h
      have hi2 := List.mem_filter.mp hisink
      refine ⟨i, List.mem_range.mp hi2.1, of_decide_eq_true hi2.2, heq.symm⟩
  · intro i
    unfold lstOf
    ring
  · intro hfs i hi
    have hb := eft_le_lft_aux w edges hwf hfs w.length i hi (by omega)
    unfold eftOf at hb
    unfold lstOf
    linarith

/-- C1 witness: the three-task workflow of the repository's workflow test
(work amounts 10, 10 and 5, Finish-Start edges from task 0 to tasks 1 and
2): the source task has est 0, the edge into task 1 is respected, the
critical path length is 20, task 2's lft - lst is its work amount 5, and
est ≤ lst holds at task 2. -/
theorem cpm_bounds_witness :
    estOf [10, 10, 5]
      [(0, 1, BaseTaskDependency.FS), (0, 2, BaseTaskDependency.FS)] 0 = 0 ∧
    eftOf [10, 10, 5]
      [(0, 1, BaseTaskDependency.FS), (0, 2, BaseTaskDependency.FS)] 0 ≤
      estOf [10, 10, 5]
        [(0, 1, BaseTaskDependency.FS), (0, 2, BaseTaskDependency.FS)] 1 ∧
    critical_path_length [10, 10, 5]
      [(0, 1, BaseTaskDependency.FS), (0, 2, BaseTaskDependency.FS)] = 20 ∧
    lftOf [10, 10, 5]
        [(0, 1, BaseTaskDependency.FS), (0, 2, BaseTaskDependency.FS)] 2 -
      lstOf [10, 10, 5]
        [(0, 1, BaseTaskDependency.FS), (0, 2, BaseTaskDependency.FS)] 2 =
      5 ∧
    estOf [10, 10, 5]
      [(0, 1, BaseTaskDependency.FS), (0, 2, BaseTaskDependency.FS)] 2 ≤
      lstOf [10, 10, 5]
        [(0, 1, BaseTaskDependency.FS), (0, 2, BaseTaskDependency.FS)] 2 := by
  have hwf : EdgesWF [10, 10, 5]
      [(0, 1, BaseTaskDependency.FS), (0, 2, BaseTaskDependency.FS)] := by
    intro e he
    fin_cases he
    · exact ⟨by decide, by decide⟩
    · exact ⟨by decide, by decide⟩
  have h := cpm_bounds [10, 10, 5]
    [(0, 1, BaseTaskDependency.FS), (0, 2, BaseTaskDependency.FS)] hwf
  have hest0 : estOf [10, 10, 5]
      [(0, 1, BaseTaskDependency.FS), (0, 2, BaseTaskDependency.FS)] 0 = 0 :=
    h.1 0 (by decide) rfl
  have hest1 : estOf [10, 10, 5]
      [(0, 1, BaseTaskDependency.FS), (0, 2, BaseTaskDependency.FS)] 1 =
      10 := by
    rw [estList_fix _ _ hwf 1 (by decide)]
    unfold estStep
    rw [if_neg (by
      simp [show predsAll
        [(0, 1, BaseTaskDependency.FS), (0, 2, BaseTaskDependency.FS)] 1 =
        [0] from rfl])]
    rw [show fsPreds
      [(0, 1, BaseTaskDependency.FS), (0, 2, BaseTaskDependency.FS)] 1 =
      [0] from rfl]
    simp only [List.map_cons, List.map_nil, List.foldl_cons, List.foldl_nil]
    rw [show (estList [10, 10, 5]
      [(0, 1, BaseTaskDependency.FS), (0, 2, BaseTaskDependency.FS)]).getD
        0 0 = 0 from hest0]
    rw [show ([10, 10, 5] : List ℚ).getD 0 0 = 10 from rfl]
    rw [max_eq_right (by norm_num : (0 : ℚ) ≤ 0 + 10)]
    norm_num
  have hest2 : estOf [10, 10, 5]
      [(0, 1, BaseTaskDependency.FS), (0, 2, BaseTaskDependency.FS)] 2 =
      10 := by
    rw [estList_fix _ _ hwf 2 (by decide)]
    unfold estStep
    rw [if_neg (by
      simp [show predsAll
        [(0, 1, BaseTaskDependency.FS), (0, 2, BaseTaskDependency.FS)] 2 =
        [0] from rfl])]
    rw [show fsPreds
      [(0, 1, BaseTaskDependency.FS), (0, 2, BaseTaskDependency.FS)] 2 =
      [0] from rfl]
    simp only [List.map_cons, List.map_nil, List.foldl_cons, List.foldl_nil]
    rw [show (estList [10, 10, 5]
      [(0, 1, BaseTaskDependency.FS), (0, 2, BaseTaskDependency.FS)]).getD
        0 0 = 0 from hest0]
    rw [show ([10, 10, 5] : List ℚ).getD 0 0 = 10 from rfl]
    rw [max_eq_right (by norm_num : (0 : ℚ) ≤ 0 + 10)]
    norm_num
  have hcpl : critical_path_length [10, 10, 5]
      [(0, 1, BaseTaskDependency.FS), (0, 2, BaseTaskDependency.FS)] =
      20 := by
    unfold critical_path_length
    rw [show sinksOf [10, 10, 5]
      [(0, 1, BaseTaskDependency.FS), (0, 2, BaseTaskDependency.FS)] =
      [1, 2] from rfl]
    simp only [List.map_cons, List.map_nil, List.foldl_cons, List.foldl_nil]
    unfold eftOf
    rw [hest1, hest2]
    rw [show ([10, 10, 5] : List ℚ).getD 1 0 = 10 from rfl]
    rw [show ([10, 10, 5] : List ℚ).getD 2 0 = 5 from rfl]
    rw [max_eq_right (by norm_num : (0 : ℚ) ≤ 10 + 10)]
    rw [max_eq_left (by norm_num : (10 : ℚ) + 5 ≤ 10 + 10)]
    norm_num
  refine ⟨hest0, h.2.1 0 1 (by decide), hcpl, ?_, ?_⟩
  · have h5 := h.2.2.2.2.1 2
    rwa [show ([10, 10, 5] : List ℚ).getD 2 0 = 5 from rfl] at h5
  · exact h.2.2.2.2.2 (by intro e he; fin_cases he <;> rfl) 2 (by decide)

/-- C1 counterexample: on the acyclic two-task graph with work amounts 10
and 1 joined by one Start-Start edge, the spec's pass equations give task
0 est 0 but lst -10, so the claim's unconditional est ≤ lst fails on an
acyclic graph that is not all-Finish-Start. -/
theorem cpm_est_le_lst_cex :
    (∀ e ∈ ([(0, 1, BaseTaskDependency.SS)] : List Edge),
      e.1 < e.2.1 ∧ e.2.1 < ([10, 1] : List ℚ).length) ∧
    estOf [10, 1] [(0, 1, BaseTaskDependency.SS)] 0 = 0 ∧
    lstOf [10, 1] [(0, 1, BaseTaskDependency.SS)] 0 = -10 ∧
    ¬ estOf [10, 1] [(0, 1, BaseTaskDependency.SS)] 0 ≤
      lstOf [10, 1] [(0, 1, BaseTaskDependency.SS)] 0 := by
  have hwf : EdgesWF [10, 1] [(0, 1, BaseTaskDependency.SS)] := by
    intro e he
    fin_cases he
    exact ⟨by decide, by decide⟩
  have hest0 : estOf [10, 1] [(0, 1, BaseTaskDependency.SS)] 0 = 0 := by
    rw [estList_fix _ _ hwf 0 (by decide)]
    unfold estStep
    rw [if_pos (show predsAll [(0, 1, BaseTaskDependency.SS)] 0 = []
      from rfl)]
  have hest1 : estOf [10, 1] [(0, 1, BaseTaskDependency.SS)] 1 = 0 := by
    rw [estList_fix _ _ hwf 1 (by decide)]
    unfold estStep
    rw [if_neg (by
      simp [show predsAll [(0, 1, BaseTaskDependency.SS)] 1 = [0] from rfl])]
    rw [show fsPreds [(0, 1, BaseTaskDependency.SS)] 1 = [] from rfl]
    simp only [List.map_nil, List.foldl_nil]
  have hcpl : critical_path_length [10, 1]
      [(0, 1, BaseTaskDependency.SS)] = 1 := by
    unfold critical_path_length
    rw [show sinksOf [10, 1] [(0, 1, BaseTaskDependency.SS)] = [1] from rfl]
    simp only [List.map_cons, List.map_nil, List.foldl_cons, List.foldl_nil]
    unfold eftOf
    rw [hest1, show ([10, 1] : List ℚ).getD 1 0 = 1 from rfl]
    rw [max_eq_right (by norm_num : (0 : ℚ) ≤ 0 + 1)]
    norm_num
  have hlft1 : lftOf [10, 1] [(0, 1, BaseTaskDependency.SS)] 1 = 1 := by
    rw [lftList_fix _ _ hwf 1 (by decide)]
    unfold lftStep
    rw [show succsAll [(0, 1, BaseTaskDependency.SS)] 1 = [] from rfl,
      List.map_nil, listMinD_nil, hcpl]
  have hlft0 : lftOf [10, 1] [(0, 1, BaseTaskDependency.SS)] 0 = 0 := by
    rw [lftList_fix _ _ hwf 0 (by decide)]
    unfold lftStep
    rw [show succsAll [(0, 1, BaseTaskDependency.SS)] 0 = [1] from rfl]
    simp only [List.map_cons, List.map_nil]
    show List.foldl min ((lftList [10, 1]
      [(0, 1, BaseTaskDependency.SS)]).getD 1 0 -
        ([10, 1] : List ℚ).getD 1 0) [] = 0
    rw [List.foldl_nil]
    rw [show (lftList [10, 1]
      [(0, 1, BaseTaskDependency.SS)]).getD 1 0 = 1 from hlft1]
    rw [show ([10, 1] : List ℚ).getD 1 0 = 1 from rfl]
    norm_num
  have hlst0 : lstOf [10, 1] [(0, 1, BaseTaskDependency.SS)] 0 = -10 := by
    unfold lstOf
    rw [hlft0, show ([10, 1] : List ℚ).getD 0 0 = 10 from rfl]
    norm_num
  refine ⟨hwf, hest0, hlst0, ?_⟩
  rw [hest0, hlst0]
  norm_num

end PDESy
